import Mathlib

/-!
Verification of the NDEF decoding core of the yotocol card reader.

The embedded functions mirror `src/index.js`:
* `URI_PREFIXES` — the `URI_PREFIXES` object (keys 0x00–0x23, modelled as a
  list indexed by the numeric key);
* `parseUriRecord` — the `parseUriRecord(data)` helper (binary URI payload);
* `findNdefMessage` — the `findNdefMessage(data)` TLV scanner;
* `decodePayload` — the `decodePayload(payload)` legacy comma-separated
  code-list helper.

Byte buffers are modelled as `List Nat` (a Node `Buffer` yields values
0–255; out-of-range reads, which in JS give `undefined`, are modelled
explicitly at each access site).  JS strings are modelled as Lean `String`.
-/

namespace Yotocol

/-- The `URI_PREFIXES` table from the source, in key order 0x00–0x23.
The JS object has contiguous numeric keys, so a list lookup by index is an
exact model. -/
def URI_PREFIX_TABLE : List String :=
  ["", "http://www.", "https://www.", "http://", "https://", "tel:",
   "mailto:", "ftp://anonymous:anonymous@", "ftp://ftp.", "ftps://",
   "sftp://", "smb://", "nfs://", "ftp://", "dav://", "news:",
   "telnet://", "imap:", "rtsp://", "urn:", "pop:", "sip:", "sips:",
   "tftp:", "btspp://", "btl2cap://", "btgoep://", "tcpobex://",
   "irdaobex://", "file://", "urn:epc:id:", "urn:epc:tag:",
   "urn:epc:pat:", "urn:epc:raw:", "urn:epc:", "urn:nfc:"]

/-- `URI_PREFIXES[c]` — JS property lookup: `undefined` (here `none`) for a
key outside 0x00–0x23. -/
def URI_PREFIXES (c : Nat) : Option String :=
  URI_PREFIX_TABLE[c]?

/-- The Unicode replacement character U+FFFD, emitted by Node's UTF-8
decoder for invalid byte sequences. -/
def replacementChar : Char := Char.ofNat 0xFFFD

/-- Valid second byte of a 3-byte UTF-8 sequence (E0 requires A0–BF,
ED requires 80–9F to exclude surrogates, otherwise 80–BF). -/
def utf8Second3 (b b2 : Nat) : Bool :=
  if b = 0xE0 then 0xA0 ≤ b2 && b2 < 0xC0
  else if b = 0xED then 0x80 ≤ b2 && b2 < 0xA0
  else 0x80 ≤ b2 && b2 < 0xC0

/-- Valid second byte of a 4-byte UTF-8 sequence (F0 requires 90–BF,
F4 requires 80–8F, otherwise 80–BF). -/
def utf8Second4 (b b2 : Nat) : Bool :=
  if b = 0xF0 then 0x90 ≤ b2 && b2 < 0xC0
  else if b = 0xF4 then 0x80 ≤ b2 && b2 < 0x90
  else 0x80 ≤ b2 && b2 < 0xC0

/-- Model of Node's `buffer.toString('utf8')` (the WHATWG decoder V8
implements): well-formed sequences decode to their scalar value, malformed
bytes decode to U+FFFD, a truncated sequence at the end of the buffer
yields a single U+FFFD.  The first argument is fuel making the recursion
structural; each step consumes at least one byte, so fuel equal to the
list length (as supplied by `utf8Decode`) always suffices. -/
def utf8DecodeAux : Nat → List Nat → List Char
  | 0, _ => []
  | _, [] => []
  | fuel + 1, b :: rest =>
    if b < 0x80 then
      Char.ofNat b :: utf8DecodeAux fuel rest
    else if b < 0xC2 then
      replacementChar :: utf8DecodeAux fuel rest
    else if b < 0xE0 then
      match rest with
      | [] => [replacementChar]
      | b2 :: rest2 =>
        if 0x80 ≤ b2 && b2 < 0xC0 then
          Char.ofNat ((b - 0xC0) * 0x40 + (b2 - 0x80)) :: utf8DecodeAux fuel rest2
        else
          replacementChar :: utf8DecodeAux fuel rest
    else if b < 0xF0 then
      match rest with
      | [] => [replacementChar]
      | b2 :: rest2 =>
        if utf8Second3 b b2 then
          match rest2 with
          | [] => [replacementChar]
          | b3 :: rest3 =>
            if 0x80 ≤ b3 && b3 < 0xC0 then
              Char.ofNat ((b - 0xE0) * 0x1000 + (b2 - 0x80) * 0x40 + (b3 - 0x80)) ::
                utf8DecodeAux fuel rest3
            else
              replacementChar :: utf8DecodeAux fuel rest2
        else
          replacementChar :: utf8DecodeAux fuel rest
    else if b < 0xF5 then
      match rest with
      | [] => [replacementChar]
      | b2 :: rest2 =>
        if utf8Second4 b b2 then
          match rest2 with
          | [] => [replacementChar]
          | b3 :: rest3 =>
            if 0x80 ≤ b3 && b3 < 0xC0 then
              match rest3 with
              | [] => [replacementChar]
              | b4 :: rest4 =>
                if 0x80 ≤ b4 && b4 < 0xC0 then
                  Char.ofNat ((b - 0xF0) * 0x40000 + (b2 - 0x80) * 0x1000 +
                      (b3 - 0x80) * 0x40 + (b4 - 0x80)) :: utf8DecodeAux fuel rest4
                else
                  replacementChar :: utf8DecodeAux fuel rest3
            else
              replacementChar :: utf8DecodeAux fuel rest2
        else
          replacementChar :: utf8DecodeAux fuel rest
    else
      replacementChar :: utf8DecodeAux fuel rest

/-- `uriData.toString('utf8')`. -/
def utf8Decode (bs : List Nat) : String :=
  String.mk (utf8DecodeAux bs.length bs)

/-- One lowercase hex digit, as in Node's `toString('hex')`. -/
def hexDigitChar (n : Nat) : Char :=
  if n < 10 then Char.ofNat (48 + n) else Char.ofNat (87 + n)

/-- `buffer.toString('hex')` — two lowercase hex digits per byte. -/
def toHex (bs : List Nat) : String :=
  String.mk ((bs.map (fun b => [hexDigitChar (b / 16 % 16), hexDigitChar (b % 16)])).flatten)

/-- The object returned by `parseUriRecord`.  JS field `prefix` is named
`prefixStr` here (`prefix` is reserved in Lean); the nested `raw` object
carries `prefixCode` (already a field) and the hex rendering of `uriData`,
kept as `rawUriDataHex`. -/
structure ResolvedUri where
  prefixCode : Nat
  prefixStr : String
  uri : String
  fullUri : String
  rawUriDataHex : String
deriving DecidableEq, Repr

/-- `parseUriRecord(data)` from `src/index.js` lines 54–78.
`data.length < 2` returns `null` (modelled `none`).  Otherwise
`prefixCode = data[0]`, `uriData = data.slice(1)`,
`prefix = URI_PREFIXES[prefixCode] || ''` (the only falsy table value is
the empty string at key 0, so `Option.getD _ ("")` is an exact model of
`|| ''`), `uri = uriData.toString('utf8')`.  The `console.log` calls do
not affect the returned value and are not modelled. -/
def parseUriRecord (data : List Nat) : Option ResolvedUri :=
  if data.length < 2 then none
  else
    let prefixCode := data.getD 0 0
    let uriData := data.drop 1
    let pfx := (URI_PREFIXES prefixCode).getD ("")
    let uri := utf8Decode uriData
    some { prefixCode := prefixCode, prefixStr := pfx, uri := uri,
           fullUri := pfx ++ uri, rawUriDataHex := toHex uriData }

/-- The scanner loop of `findNdefMessage` (lines 87–98): starting at
`offset`, walk while `offset < data.length`.  At a 0x03 tag the source
reads `length = data[offset + 1]` and returns
`data.slice(offset + 2, offset + 2 + length)`; JS `slice` clamps both ends
to the buffer, modelled by `drop`/`take`.  When `offset + 1` is out of
range, `data[offset + 1]` is `undefined`, so the slice end is `NaN`,
which `slice` coerces to 0 — the result is an empty buffer, modelled by
the `none` arm.  At a 0xFE tag the loop breaks (returns `null`);
otherwise `offset++`. -/
def findNdefMessageAux (data : List Nat) (offset : Nat) : Option (List Nat) :=
  if h : offset < data.length then
    if data[offset] = 0x03 then
      match data[offset + 1]? with
      | some len => some ((data.drop (offset + 2)).take len)
      | none => some []
    else if data[offset] = 0xFE then
      none
    else
      findNdefMessageAux data (offset + 1)
  else
    none
termination_by data.length - offset
decreasing_by omega

/-- `findNdefMessage(data)` from `src/index.js` lines 81–100. -/
def findNdefMessage (data : List Nat) : Option (List Nat) :=
  findNdefMessageAux data 0

/-- Characters treated as whitespace by `String.prototype.trim` (the ASCII
ones; the inputs at issue contain only digits and commas). -/
def isJsSpace (c : Char) : Bool :=
  c = ' ' || c = '\t' || c = '\n' || c = '\r' || c = '\x0b' || c = '\x0c'

/-- `num.trim()`. -/
def jsTrim (s : String) : String :=
  String.mk (((s.toList.dropWhile isJsSpace).reverse.dropWhile isJsSpace).reverse)

/-- Value of a maximal leading run of decimal digits; `none` when there is
no leading digit (the `NaN` outcome of `parseInt`). -/
def digitsVal (cs : List Char) : Option Nat :=
  let ds := cs.takeWhile (fun c => c.isDigit)
  if ds.isEmpty then none
  else some (ds.foldl (fun acc c => acc * 10 + (c.toNat - 48)) 0)

/-- `parseInt(s, 10)`: optional sign then the longest prefix of decimal
digits; `none` models `NaN`. -/
def parseIntModel (s : String) : Option Int :=
  match s.toList with
  | [] => none
  | c :: cs =>
    if c = '-' then (digitsVal cs).map (fun n => -(n : Int))
    else if c = '+' then (digitsVal cs).map (fun n => (n : Int))
    else (digitsVal (c :: cs)).map (fun n => (n : Int))

/-- `payload.split(',')` — segments between commas, empty segments kept. -/
def splitCommaAux : List Char → List Char → List String
  | [], acc => [String.mk acc.reverse]
  | c :: rest, acc =>
    if c = ',' then String.mk acc.reverse :: splitCommaAux rest []
    else splitCommaAux rest (c :: acc)

/-- `payload.split(',')`. -/
def splitOnComma (s : String) : List String :=
  splitCommaAux s.toList []

/-- `URI_PREFIXES[prefixCode] || ''` where `prefixCode` is the result of
`parseInt` (possibly `NaN`, modelled `none`, or negative): any key outside
the table gives `undefined`, hence `''`. -/
def jsUriLookup : Option Int → String
  | none => ""
  | some i => if i < 0 then "" else (URI_PREFIXES i.toNat).getD ("")

/-- `String.fromCharCode(n)`: `ToUint16` of the number (`NaN` gives 0).
Lone-surrogate code units (0xD800–0xDFFF) are not representable as a Lean
`Char`; `Char.ofNat` sends them to NUL.  Every use in the claims keeps the
codes below 0xD800, where the model is exact. -/
def fromCharCode : Option Int → Char
  | none => Char.ofNat 0
  | some i => Char.ofNat ((i % 65536).toNat)

/-- `decodePayload(payload)` from `src/index.js` lines 103–116: split the
comma-separated string, `parseInt` each trimmed part, look up the first
number in `URI_PREFIXES`, turn the remaining numbers into characters with
`String.fromCharCode`, and concatenate. -/
def decodePayload (payload : String) : String :=
  let numbers := (splitOnComma payload).map (fun num => parseIntModel (jsTrim num))
  let pfxCode := numbers.headD none
  let pfx := jsUriLookup pfxCode
  let chars := (numbers.drop 1).map fromCharCode
  pfx ++ String.mk chars

/-- Decimal digits of `n` (big-endian), with an explicit fuel argument so
that the definition is structurally recursive; `natDecChars` instantiates
the fuel with `n` itself, which always suffices. -/
def natDecAux : Nat → Nat → List Char
  | 0, _ => []
  | fuel + 1, n =>
    if n = 0 then []
    else natDecAux fuel (n / 10) ++ [Char.ofNat (48 + n % 10)]

/-- `String(n)` for a natural number — decimal rendering. -/
def natDecChars (n : Nat) : List Char :=
  if n = 0 then ['0'] else natDecAux n n

/-- The comma-separated decimal rendering of a byte sequence, i.e. the
string `bytes.join(',')` which the legacy path receives (claim language,
used as input construction for the refinement claim). -/
def renderBytesChars : List Nat → List Char
  | [] => []
  | [b] => natDecChars b
  | b :: rest => natDecChars b ++ ',' :: renderBytesChars rest

/-- The comma-separated decimal rendering as a string. -/
def renderBytes (bs : List Nat) : String :=
  String.mk (renderBytesChars bs)

/-! ### Scanner lemmas -/

theorem findNdefMessageAux_stop (data : List Nat) (offset : Nat)
    (h : data.length ≤ offset) : findNdefMessageAux data offset = none := by
  unfold findNdefMessageAux
  rw [dif_neg (by omega)]

theorem findNdefMessageAux_skip (data : List Nat) (offset : Nat)
    (h : offset < data.length)
    (h3 : data[offset]? ≠ some 0x03) (hfe : data[offset]? ≠ some 0xFE) :
    findNdefMessageAux data offset = findNdefMessageAux data (offset + 1) := by
  conv_lhs => rw [findNdefMessageAux]
  rw [dif_pos h]
  rw [if_neg (fun e => h3 (by rw [List.getElem?_eq_getElem h, e]))]
  rw [if_neg (fun e => hfe (by rw [List.getElem?_eq_getElem h, e]))]

theorem findNdefMessageAux_reach (data : List Nat) (offset : Nat)
    (hpre : ∀ j, j < offset → data[j]? ≠ some 0x03 ∧ data[j]? ≠ some 0xFE) :
    findNdefMessageAux data 0 = findNdefMessageAux data offset := by
  induction offset with
  | zero => rfl
  | succ n ih =>
    have h0 : findNdefMessageAux data 0 = findNdefMessageAux data n :=
      ih (fun j hj => hpre j (by omega))
    by_cases hn : n < data.length
    · rw [h0, findNdefMessageAux_skip data n hn (hpre n (by omega)).1 (hpre n (by omega)).2]
    · rw [h0, findNdefMessageAux_stop data n (by omega),
        findNdefMessageAux_stop data (n + 1) (by omega)]

theorem findNdefMessageAux_hit (data : List Nat) (offset : Nat)
    (h : offset < data.length) (h3 : data[offset]? = some 0x03) :
    findNdefMessageAux data offset =
      match data[offset + 1]? with
      | some len => some ((data.drop (offset + 2)).take len)
      | none => some [] := by
  unfold findNdefMessageAux
  rw [dif_pos h]
  obtain ⟨hlt, hv⟩ := List.getElem?_eq_some.mp h3
  rw [if_pos hv]

/-! ### Claims about the TLV scanner -/

/-- Claim C3 (confirmed): for every buffer and offset such that the byte at
`offset` is 0x03, no earlier byte is 0x03 or 0xFE (so the scanner, advancing
one byte per unrecognized tag, reaches this offset with this tag as the
first NDEF Message TLV), `L = buffer[offset+1]`, and the buffer holds at
least `offset + 2 + L` bytes, `findNdefMessage` returns exactly the `L`
bytes following the length byte. -/
theorem scan_exact_slice (data : List Nat) (offset L : Nat)
    (hpre : ∀ j, j < offset → data[j]? ≠ some 0x03 ∧ data[j]? ≠ some 0xFE)
    (htag : data[offset]? = some 0x03)
    (hL : data[offset + 1]? = some L)
    (hfit : offset + 2 + L ≤ data.length) :
    findNdefMessage data = some ((data.drop (offset + 2)).take L) ∧
      ((data.drop (offset + 2)).take L).length = L := by
  obtain ⟨hoff, _⟩ := List.getElem?_eq_some.mp htag
  constructor
  · rw [findNdefMessage, findNdefMessageAux_reach data offset hpre,
      findNdefMessageAux_hit data offset hoff htag, hL]
  · rw [List.length_take, List.length_drop]
    omega

/-- Witness for C3: in `[0x01, 0x03, 0x02, 0xAA, 0xBB, 0xFE]` the scanner
skips the unknown 0x01 tag, finds 0x03 at offset 1 with length 2, and
returns exactly `[0xAA, 0xBB]`. -/
theorem scan_exact_slice_witness :
    findNdefMessage [0x01, 0x03, 0x02, 0xAA, 0xBB, 0xFE] = some [0xAA, 0xBB] ∧
      ([0xAA, 0xBB] : List Nat).length = 2 :=
  scan_exact_slice [0x01, 0x03, 0x02, 0xAA, 0xBB, 0xFE] 1 2
    (by intro j hj; interval_cases j; exact ⟨by decide, by decide⟩)
    (by decide) (by decide) (by decide)

/-- Counterexample to claim C1: in the buffer `[0x03, 0x05, 0x01]` the
scanner meets tag 0x03 at offset 0 with declared length `L = 5`, and
`offset + 2 + L = 7` exceeds the buffer length 3, yet `findNdefMessage`
returns a (clamped) value of length 1 rather than absent — and that
length differs from the declared `L`. -/
theorem scan_overflow_cex :
    findNdefMessage [0x03, 0x05, 0x01] = some [0x01] ∧
      findNdefMessage [0x03, 0x05, 0x01] ≠ none ∧
      ([0x01] : List Nat).length ≠ 5 := by
  refine ⟨?_, ?_, by decide⟩
  · simp [findNdefMessage, findNdefMessageAux]
  · simp [findNdefMessage, findNdefMessageAux]

/-- Claim C1 (corrected): when the scanner reaches a 0x03 tag at `offset`
whose declared length `L = buffer[offset+1]` satisfies
`offset + 2 + L > buffer.length`, it does NOT return absent: JS `slice`
clamps to the buffer end, so it returns the remaining
`buffer.length - offset - 2` bytes (zero bytes when the tag sits at the
very end), a value shorter than the declared length.  No out-of-bounds
read occurs. -/
theorem scan_overflow_clamps (data : List Nat) (offset : Nat)
    (hpre : ∀ j, j < offset → data[j]? ≠ some 0x03 ∧ data[j]? ≠ some 0xFE)
    (htag : data[offset]? = some 0x03)
    (hover : data.length < offset + 2 + (data[offset + 1]?).getD 0) :
    ∃ v, findNdefMessage data = some v ∧ v.length = data.length - (offset + 2) := by
  obtain ⟨hoff, _⟩ := List.getElem?_eq_some.mp htag
  rw [findNdefMessage, findNdefMessageAux_reach data offset hpre,
    findNdefMessageAux_hit data offset hoff htag]
  cases hL : data[offset + 1]? with
  | none =>
    have hlen : data.length ≤ offset + 1 := by
      by_contra hcon
      rw [List.getElem?_eq_getElem (by omega)] at hL
      exact Option.noConfusion hL
    exact ⟨[], rfl, by simp only [List.length_nil]; omega⟩
  | some L =>
    refine ⟨(data.drop (offset + 2)).take L, rfl, ?_⟩
    rw [hL] at hover
    simp only [Option.getD_some] at hover
    rw [List.length_take, List.length_drop]
    omega

/-- Witness for C1 (corrected): the buffer of `scan_overflow_cex`,
`[0x03, 0x05, 0x01]`, yields a clamped value of length `3 - 2 = 1`. -/
theorem scan_overflow_clamps_witness :
    ∃ v, findNdefMessage [0x03, 0x05, 0x01] = some v ∧ v.length = 1 :=
  scan_overflow_clamps [0x03, 0x05, 0x01] 0
    (by intro j hj; omega) (by decide) (by decide)

/-- Claim C10 (confirmed): `findNdefMessage` is total (the embedding is a
total function; no access reads outside the buffer), and whenever the
scanner reaches a 0x03 tag at `offset` it returns a value of length
`min L (buffer.length - offset - 2)` (natural subtraction models the
`max 0` clamp; when `offset + 1` is out of range the second component is 0
and the result is empty, matching the `undefined` length in JS). -/
theorem scan_total_clamped (data : List Nat) (offset : Nat)
    (hpre : ∀ j, j < offset → data[j]? ≠ some 0x03 ∧ data[j]? ≠ some 0xFE)
    (htag : data[offset]? = some 0x03) :
    ∃ v, findNdefMessage data = some v ∧
      v.length = min ((data[offset + 1]?).getD 0) (data.length - (offset + 2)) := by
  obtain ⟨hoff, _⟩ := List.getElem?_eq_some.mp htag
  rw [findNdefMessage, findNdefMessageAux_reach data offset hpre,
    findNdefMessageAux_hit data offset hoff htag]
  cases hL : data[offset + 1]? with
  | none =>
    have hlen : data.length ≤ offset + 1 := by
      by_contra hcon
      rw [List.getElem?_eq_getElem (by omega)] at hL
      exact Option.noConfusion hL
    exact ⟨[], rfl, by simp only [List.length_nil, Option.getD_none]; omega⟩
  | some L =>
    refine ⟨(data.drop (offset + 2)).take L, rfl, ?_⟩
    rw [List.length_take, List.length_drop]
    simp only [Option.getD_some]

/-- Witness for C10: in `[0x00, 0x03, 0x02, 0x07, 0x08, 0x09]` the tag at
offset 1 declares length 2 and the buffer has room, so the value length is
`min 2 3 = 2`. -/
theorem scan_total_clamped_witness :
    ∃ v, findNdefMessage [0x00, 0x03, 0x02, 0x07, 0x08, 0x09] = some v ∧
      v.length = 2 :=
  scan_total_clamped [0x00, 0x03, 0x02, 0x07, 0x08, 0x09] 1
    (by intro j hj; interval_cases j; exact ⟨by decide, by decide⟩)
    (by decide)

/-- Counterexample to claim C4: the one-byte buffer `[0x03]` does NOT make
`findNdefMessage` return absent: `data[1]` is `undefined`, the slice end
becomes `NaN` (coerced to 0), and the function returns an empty buffer. -/
theorem scan_single03_cex :
    findNdefMessage [0x03] ≠ none ∧ findNdefMessage [0x03] = some [] := by
  constructor
  · simp [findNdefMessage, findNdefMessageAux]
  · simp [findNdefMessage, findNdefMessageAux]

/-- Claim C4 (corrected): `findNdefMessage` returns absent for every buffer
whose first byte is 0xFE, and for every buffer shorter than 2 bytes EXCEPT
the one-byte buffer `[0x03]`, for which it returns an empty (zero-length)
value rather than absent. -/
theorem scan_absent_cases :
    (∀ data : List Nat, data[0]? = some 0xFE → findNdefMessage data = none) ∧
    (∀ data : List Nat, data.length < 2 → data ≠ [0x03] →
      findNdefMessage data = none) ∧
    findNdefMessage [0x03] = some [] := by
  refine ⟨?_, ?_, by simp [findNdefMessage, findNdefMessageAux]⟩
  · intro data h0
    obtain ⟨hlt, hv⟩ := List.getElem?_eq_some.mp h0
    rw [findNdefMessage]
    unfold findNdefMessageAux
    rw [dif_pos hlt, if_neg (by omega), if_pos hv]
  · intro data hlen hne
    match data with
    | [] => exact findNdefMessageAux_stop [] 0 (by simp)
    | [b] =>
      have hb : b ≠ 0x03 := fun e => hne (by rw [e])
      rw [findNdefMessage]
      unfold findNdefMessageAux
      rw [dif_pos (by simp)]
      rw [if_neg (by simpa using hb)]
      by_cases hfe : b = 0xFE
      · rw [if_pos (by simpa using hfe)]
      · rw [if_neg (by simpa using hfe)]
        exact findNdefMessageAux_stop [b] 1 (by simp)
    | a :: b :: rest =>
      simp only [List.length_cons] at hlen
      omega

/-- Witness for C4 (corrected): concrete instances of the three cases —
`[0xFE, 0x03]` (terminator first) and `[0x07]` (one unknown byte) give
absent, `[0x03]` gives the empty value. -/
theorem scan_absent_cases_witness :
    findNdefMessage [0xFE, 0x03] = none ∧ findNdefMessage [0x07] = none ∧
      findNdefMessage [0x03] = some [] :=
  ⟨scan_absent_cases.1 [0xFE, 0x03] (by decide),
   scan_absent_cases.2.1 [0x07] (by decide) (by decide),
   scan_absent_cases.2.2⟩

/-! ### URI resolver lemmas -/

theorem parseUriRecord_some (data : List Nat) (h : 2 ≤ data.length) :
    parseUriRecord data =
      some ⟨data.getD 0 0, (URI_PREFIXES (data.getD 0 0)).getD (""),
        utf8Decode (data.drop 1),
        (URI_PREFIXES (data.getD 0 0)).getD ("") ++ utf8Decode (data.drop 1),
        toHex (data.drop 1)⟩ := by
  rw [parseUriRecord, if_neg (by omega)]

theorem parseUriRecord_none (data : List Nat) (h : data.length < 2) :
    parseUriRecord data = none := by
  rw [parseUriRecord, if_pos h]

/-! ### Claims about the URI resolver -/

/-- Counterexample to claim C2: the one-byte payload `[0x04]` has length
at least 1, yet `parseUriRecord` fails (returns `null`) instead of
resolving to the bare prefix — the source guards `data.length < 2`, not
`data.length === 0`. -/
theorem resolveUri_one_byte_cex :
    parseUriRecord [0x04] = none ∧ 1 ≤ ([0x04] : List Nat).length := by
  exact ⟨by decide, by decide⟩

/-- Claim C2 (corrected): `parseUriRecord` fails exactly on payloads
shorter than 2 bytes — the empty payload AND every one-byte payload — and
for every payload of length at least 2 it succeeds, with prefix taken from
the prefix table for `payload[0]` and suffix `payload[1:]` decoded as
UTF-8.  (A one-byte payload does NOT resolve to the bare prefix; it
fails.) -/
theorem resolveUri_fails_iff_short (data : List Nat) :
    (parseUriRecord data = none ↔ data.length < 2) ∧
    (2 ≤ data.length → ∃ r, parseUriRecord data = some r ∧
      r.prefixCode = data.getD 0 0 ∧
      r.prefixStr = (URI_PREFIXES (data.getD 0 0)).getD ("") ∧
      r.uri = utf8Decode (data.drop 1) ∧
      r.fullUri = r.prefixStr ++ r.uri) := by
  constructor
  · constructor
    · intro hnone
      by_contra hlen
      rw [parseUriRecord_some data (by omega)] at hnone
      exact Option.noConfusion hnone
    · exact parseUriRecord_none data
  · intro h
    exact ⟨_, parseUriRecord_some data h, rfl, rfl, rfl, rfl⟩

/-- Witness for C2 (corrected): the two-byte payload `[0x02, 0x61]`
resolves with prefix `https://www.` and suffix `a`. -/
theorem resolveUri_fails_iff_short_witness :
    2 ≤ ([0x02, 0x61] : List Nat).length ∧
      (∃ r, parseUriRecord [0x02, 0x61] = some r ∧
        r.prefixCode = ([0x02, 0x61] : List Nat).getD 0 0 ∧
        r.prefixStr = (URI_PREFIXES (([0x02, 0x61] : List Nat).getD 0 0)).getD ("") ∧
        r.uri = utf8Decode (([0x02, 0x61] : List Nat).drop 1) ∧
        r.fullUri = r.prefixStr ++ r.uri) :=
  ⟨by decide, (resolveUri_fails_iff_short [0x02, 0x61]).2 (by decide)⟩

/-- Claim C5 (confirmed): the prefix table has exactly the 36 canonical
entries for codes 0x00–0x23 (`0x00` maps to the empty string, `0x04` to
`https://`), lookups outside 0x00–0x23 are undefined and degrade to the
empty string via `|| ''`, and the prefix `parseUriRecord` produces is
exactly this table lookup applied to `payload[0]`. -/
theorem uriPrefixTable_spec :
    URI_PREFIX_TABLE.length = 36 ∧
    (∀ c : Nat, c < 36 → (URI_PREFIXES c).isSome = true) ∧
    (∀ c : Nat, 36 ≤ c → URI_PREFIXES c = none) ∧
    (URI_PREFIXES 0x00).getD ("") = "" ∧
    (URI_PREFIXES 0x04).getD ("") = "https://" ∧
    (∀ c : Nat, 36 ≤ c → (URI_PREFIXES c).getD ("") = "") ∧
    (∀ data : List Nat, ∀ r, parseUriRecord data = some r →
      r.prefixStr = (URI_PREFIXES (data.getD 0 0)).getD ("")) := by
  refine ⟨by decide, ?_, ?_, by decide, by decide, ?_, ?_⟩
  · intro c hc
    rw [URI_PREFIXES, List.getElem?_eq_getElem (by rw [show URI_PREFIX_TABLE.length = 36 from by decide]; omega)]
    rfl
  · intro c hc
    rw [URI_PREFIXES]
    exact List.getElem?_eq_none (by rw [show URI_PREFIX_TABLE.length = 36 from by decide]; omega)
  · intro c hc
    rw [URI_PREFIXES]
    rw [List.getElem?_eq_none (by rw [show URI_PREFIX_TABLE.length = 36 from by decide]; omega)]
    rfl
  · intro data r hr
    by_cases h : 2 ≤ data.length
    · rw [parseUriRecord_some data h] at hr
      cases hr
      rfl
    · rw [parseUriRecord_none data (by omega)] at hr
      exact Option.noConfusion hr

/-- Witness for C5: code 0x07 is defined, code 0x24 (= 36, just past the
table) degrades to the empty prefix, and a payload with the out-of-table
code 0x29 resolves with empty prefix rather than failing. -/
theorem uriPrefixTable_spec_witness :
    (URI_PREFIXES 0x07).isSome = true ∧
      URI_PREFIXES 0x24 = none ∧
      (URI_PREFIXES 0x29).getD ("") = "" ∧
      (⟨0x29, "", "A", "A", "41"⟩ : ResolvedUri).prefixStr =
        (URI_PREFIXES (([0x29, 0x41] : List Nat).getD 0 0)).getD ("") :=
  ⟨uriPrefixTable_spec.2.1 0x07 (by decide),
   uriPrefixTable_spec.2.2.1 0x24 (by decide),
   uriPrefixTable_spec.2.2.2.2.2.1 0x29 (by decide),
   uriPrefixTable_spec.2.2.2.2.2.2 [0x29, 0x41] ⟨0x29, "", "A", "A", "41"⟩ (by decide)⟩

/-- Claim C6 (confirmed): the scenario payloads resolve to the stated full
strings — `[0x04] ++ "google.com"` gives `https://google.com`, and
`[0x00, 0x41, 0x42]` gives `AB` — and every record `parseUriRecord`
returns satisfies `fullUri = prefixStr ++ uri`. -/
theorem resolveUri_scenarios :
    (∃ r, parseUriRecord [0x04, 0x67, 0x6F, 0x6F, 0x67, 0x6C, 0x65, 0x2E, 0x63, 0x6F, 0x6D] =
        some r ∧ r.fullUri = "https://google.com") ∧
    (∃ r, parseUriRecord [0x00, 0x41, 0x42] = some r ∧ r.fullUri = "AB") ∧
    (∀ data : List Nat, ∀ r, parseUriRecord data = some r →
      r.fullUri = r.prefixStr ++ r.uri) := by
  refine ⟨⟨⟨0x04, "https://", "google.com", "https://google.com", "676f6f676c652e636f6d"⟩,
      by decide, by decide⟩,
    ⟨⟨0x00, "", "AB", "AB", "4142"⟩, by decide, by decide⟩, ?_⟩
  · intro data r hr
    by_cases h : 2 ≤ data.length
    · rw [parseUriRecord_some data h] at hr
      cases hr
      rfl
    · rw [parseUriRecord_none data (by omega)] at hr
      exact Option.noConfusion hr

/-- Witness for C6: instance of the `fullUri = prefixStr ++ uri` invariant
on the concrete payload `[0x05, 0x78]` (a `tel:` record). -/
theorem resolveUri_scenarios_witness :
    parseUriRecord [0x05, 0x78] = some ⟨0x05, "tel:", "x", "tel:x", "78"⟩ ∧
      (⟨0x05, "tel:", "x", "tel:x", "78"⟩ : ResolvedUri).fullUri =
        (⟨0x05, "tel:", "x", "tel:x", "78"⟩ : ResolvedUri).prefixStr ++
          (⟨0x05, "tel:", "x", "tel:x", "78"⟩ : ResolvedUri).uri :=
  ⟨by decide,
   resolveUri_scenarios.2.2 [0x05, 0x78] ⟨0x05, "tel:", "x", "tel:x", "78"⟩ (by decide)⟩

/-- Claim C8 (confirmed): `parseUriRecord` is a pure function of the
payload bytes — two applications to byte-equal payloads return identical
`ResolvedUri` results (in particular the same `prefixCode`, `prefixStr`,
`uri` and `fullUri`).  The `console.log` calls in the source write to the
terminal but do not influence the returned value. -/
theorem resolveUri_deterministic (p q : List Nat) (h : p = q) :
    parseUriRecord p = parseUriRecord q := by
  rw [h]

/-- Witness for C8: two runs on the scenario payload `[0x04, 0x61]` agree. -/
theorem resolveUri_deterministic_witness :
    ([0x04, 0x61] : List Nat) = [0x04, 0x61] ∧
      parseUriRecord [0x04, 0x61] = parseUriRecord [0x04, 0x61] :=
  ⟨rfl, resolveUri_deterministic [0x04, 0x61] [0x04, 0x61] rfl⟩

/-! ### Decimal rendering and parsing lemmas (for the legacy code-list path) -/

theorem digitChar_spec (d : Nat) (hd : d < 10) :
    (Char.ofNat (48 + d)).isDigit = true ∧ (Char.ofNat (48 + d)).toNat = 48 + d ∧
      Char.ofNat (48 + d) ≠ ',' ∧ Char.ofNat (48 + d) ≠ '-' ∧
      Char.ofNat (48 + d) ≠ '+' ∧ isJsSpace (Char.ofNat (48 + d)) = false := by
  interval_cases d <;> exact ⟨by decide, by decide, by decide, by decide, by decide, by decide⟩

theorem natDecAux_mem (fuel : Nat) : ∀ n c, c ∈ natDecAux fuel n →
    ∃ d, d < 10 ∧ c = Char.ofNat (48 + d) := by
  induction fuel with
  | zero => intro n c hc; exact absurd hc (by simp [natDecAux])
  | succ f ih =>
    intro n c hc
    by_cases hn : n = 0
    · rw [natDecAux, if_pos hn] at hc
      exact absurd hc (by simp)
    · rw [natDecAux, if_neg hn] at hc
      rcases List.mem_append.mp hc with h | h
      · exact ih (n / 10) c h
      · refine ⟨n % 10, Nat.mod_lt n (by omega), ?_⟩
        simpa using h

theorem natDecChars_mem (n : Nat) (c : Char) (hc : c ∈ natDecChars n) :
    ∃ d, d < 10 ∧ c = Char.ofNat (48 + d) := by
  by_cases hn : n = 0
  · rw [natDecChars, if_pos hn] at hc
    exact ⟨0, by omega, by simpa using hc⟩
  · rw [natDecChars, if_neg hn] at hc
    exact natDecAux_mem n n c hc

theorem natDecChars_ne_nil (n : Nat) : natDecChars n ≠ [] := by
  by_cases hn : n = 0
  · rw [natDecChars, if_pos hn]
    exact List.cons_ne_nil _ _
  · rw [natDecChars, if_neg hn]
    obtain ⟨f, rfl⟩ : ∃ f, n = f + 1 := ⟨n - 1, by omega⟩
    rw [natDecAux, if_neg hn]
    simp

theorem natDecAux_val (fuel : Nat) : ∀ n, n ≤ fuel → ∀ acc : Nat,
    (natDecAux fuel n).foldl (fun a c => a * 10 + (c.toNat - 48)) acc =
      acc * 10 ^ (natDecAux fuel n).length + n := by
  induction fuel with
  | zero =>
    intro n hn acc
    obtain rfl : n = 0 := by omega
    simp [natDecAux]
  | succ f ih =>
    intro n hn acc
    by_cases hn0 : n = 0
    · subst hn0
      rw [natDecAux, if_pos rfl]
      simp
    · rw [natDecAux, if_neg hn0]
      have hdiv : n / 10 < n := Nat.div_lt_self (by omega) (by omega)
      rw [List.foldl_append, ih (n / 10) (by omega) acc]
      simp only [List.foldl_cons, List.foldl_nil, List.length_append,
        List.length_cons, List.length_nil]
      rw [(digitChar_spec (n % 10) (Nat.mod_lt n (by omega))).2.1]
      calc (acc * 10 ^ (natDecAux f (n / 10)).length + n / 10) * 10 + (48 + n % 10 - 48)
          = acc * (10 ^ (natDecAux f (n / 10)).length * 10) + (n / 10 * 10 + n % 10) := by
            ring_nf
            omega
        _ = acc * 10 ^ ((natDecAux f (n / 10)).length + 1) + n := by
            rw [pow_succ]
            congr 1
            omega

theorem takeWhile_eq_self_of_all (p : Char → Bool) :
    ∀ l : List Char, (∀ c ∈ l, p c = true) → l.takeWhile p = l := by
  intro l
  induction l with
  | nil => intro _; rfl
  | cons c cs ih =>
    intro h
    rw [List.takeWhile_cons, if_pos (h c (by simp))]
    rw [ih (fun x hx => h x (by simp [hx]))]

theorem dropWhile_eq_self_of_all (p : Char → Bool) :
    ∀ l : List Char, (∀ c ∈ l, p c = false) → l.dropWhile p = l := by
  intro l
  induction l with
  | nil => intro _; rfl
  | cons c cs ih =>
    intro h
    rw [List.dropWhile_cons]
    rw [if_neg (by rw [h c (by simp)]; simp)]

theorem digitsVal_natDecChars (n : Nat) : digitsVal (natDecChars n) = some n := by
  have hdig : ∀ c ∈ natDecChars n, c.isDigit = true := by
    intro c hc
    obtain ⟨d, hd, rfl⟩ := natDecChars_mem n c hc
    exact (digitChar_spec d hd).1
  rw [digitsVal]
  simp only [takeWhile_eq_self_of_all _ _ hdig]
  rw [if_neg (by simpa using natDecChars_ne_nil n)]
  by_cases hn : n = 0
  · subst hn
    decide
  · rw [natDecChars, if_neg hn]
    rw [natDecAux_val n n le_rfl 0]
    simp

theorem jsTrim_no_space (l : List Char) (h : ∀ c ∈ l, isJsSpace c = false) :
    jsTrim (String.mk l) = String.mk l := by
  rw [jsTrim]
  have h1 : (String.mk l).toList = l := rfl
  rw [h1, dropWhile_eq_self_of_all _ l h,
    dropWhile_eq_self_of_all _ l.reverse (fun c hc => h c (List.mem_reverse.mp hc)),
    List.reverse_reverse]

theorem parseIntModel_natDec (n : Nat) :
    parseIntModel (String.mk (natDecChars n)) = some (Int.ofNat n) := by
  cases hl : natDecChars n with
  | nil => exact absurd hl (natDecChars_ne_nil n)
  | cons c cs =>
    obtain ⟨d, hd, hc⟩ := natDecChars_mem n c (by rw [hl]; simp)
    have hstep : parseIntModel (String.mk (c :: cs)) =
        if c = '-' then (digitsVal cs).map (fun m => -(m : Int))
        else if c = '+' then (digitsVal cs).map (fun m => (m : Int))
        else (digitsVal (c :: cs)).map (fun m => (m : Int)) := rfl
    rw [hstep,
      if_neg (by rw [hc]; exact (digitChar_spec d hd).2.2.2.1),
      if_neg (by rw [hc]; exact (digitChar_spec d hd).2.2.2.2.1),
      ← hl, digitsVal_natDecChars n]
    rfl

theorem splitCommaAux_nocomma :
    ∀ xs : List Char, (∀ c ∈ xs, c ≠ ',') → ∀ acc rest,
      splitCommaAux (xs ++ rest) acc = splitCommaAux rest (xs.reverse ++ acc) := by
  intro xs
  induction xs with
  | nil => intro _ acc rest; simp
  | cons c cs ih =>
    intro h acc rest
    rw [List.cons_append, splitCommaAux, if_neg (h c (by simp))]
    rw [ih (fun x hx => h x (by simp [hx])) (c :: acc) rest]
    simp

theorem natDecChars_no_comma (n : Nat) : ∀ c ∈ natDecChars n, c ≠ ',' := by
  intro c hc
  obtain ⟨d, hd, rfl⟩ := natDecChars_mem n c hc
  exact (digitChar_spec d hd).2.2.1

theorem natDecChars_no_space (n : Nat) : ∀ c ∈ natDecChars n, isJsSpace c = false := by
  intro c hc
  obtain ⟨d, hd, rfl⟩ := natDecChars_mem n c hc
  exact (digitChar_spec d hd).2.2.2.2.2

theorem splitOnComma_render : ∀ bs : List Nat, bs ≠ [] →
    splitOnComma (renderBytes bs) = bs.map (fun b => String.mk (natDecChars b)) := by
  intro bs
  induction bs with
  | nil => intro h; exact absurd rfl h
  | cons b rest ih =>
    intro _
    cases rest with
    | nil =>
      rw [renderBytes, splitOnComma]
      have h1 : (String.mk (renderBytesChars [b])).toList = renderBytesChars [b] := rfl
      rw [h1, show renderBytesChars [b] = natDecChars b from rfl]
      rw [show natDecChars b = natDecChars b ++ ([] : List Char) from by simp]
      rw [splitCommaAux_nocomma (natDecChars b) (natDecChars_no_comma b) [] []]
      rw [splitCommaAux]
      simp
    | cons b2 rest2 =>
      rw [renderBytes, splitOnComma]
      have h1 : (String.mk (renderBytesChars (b :: b2 :: rest2))).toList =
        renderBytesChars (b :: b2 :: rest2) := rfl
      rw [h1, show renderBytesChars (b :: b2 :: rest2) =
        natDecChars b ++ ',' :: renderBytesChars (b2 :: rest2) from rfl]
      rw [splitCommaAux_nocomma (natDecChars b) (natDecChars_no_comma b) []
        (',' :: renderBytesChars (b2 :: rest2))]
      rw [splitCommaAux, if_pos rfl]
      have h2 : splitCommaAux (renderBytesChars (b2 :: rest2)) [] =
          (b2 :: rest2).map (fun x => String.mk (natDecChars x)) := by
        have h3 := ih (List.cons_ne_nil b2 rest2)
        rw [renderBytes, splitOnComma,
          show (String.mk (renderBytesChars (b2 :: rest2))).toList =
            renderBytesChars (b2 :: rest2) from rfl] at h3
        exact h3
      rw [h2]
      simp

theorem splitparse_render (bs : List Nat) (hne : bs ≠ []) :
    (splitOnComma (renderBytes bs)).map (fun num => parseIntModel (jsTrim num)) =
      bs.map (fun c => some (Int.ofNat c)) := by
  rw [splitOnComma_render bs hne, List.map_map]
  refine List.map_congr_left ?_
  intro b _
  simp only [Function.comp_apply]
  rw [jsTrim_no_space (natDecChars b) (natDecChars_no_space b), parseIntModel_natDec b]

/-! ### ASCII UTF-8 decoding -/

theorem utf8DecodeAux_ascii (fuel : Nat) : ∀ bs : List Nat, bs.length ≤ fuel →
    (∀ b ∈ bs, b < 0x80) → utf8DecodeAux fuel bs = bs.map Char.ofNat := by
  induction fuel with
  | zero =>
    intro bs hlen _
    obtain rfl : bs = [] := by
      cases bs with
      | nil => rfl
      | cons b r => simp at hlen
    rfl
  | succ f ih =>
    intro bs hlen hb
    cases bs with
    | nil => rfl
    | cons b rest =>
      simp only [utf8DecodeAux]
      rw [if_pos (hb b (by simp))]
      rw [List.map_cons, ih rest (by simpa using hlen) (fun x hx => hb x (by simp [hx]))]

theorem utf8Decode_ascii (bs : List Nat) (h : ∀ b ∈ bs, b < 0x80) :
    utf8Decode bs = String.mk (bs.map Char.ofNat) := by
  rw [utf8Decode, utf8DecodeAux_ascii bs.length bs le_rfl h]

/-! ### Claims about the legacy code-list path -/

/-- Claim C7 (confirmed): for every code list (any string splitting into
comma-separated parts that parse to those integer codes — in particular
the comma-separated decimal rendering), `decodePayload` looks the first
code up in the same `URI_PREFIXES` table and appends the remaining codes
converted character-by-character with `String.fromCharCode` (restricted
here to scalar values below 0xD800, since Lean `Char` cannot carry lone
surrogates).  In particular `"4,103,111,111,103,108,101"` yields
`https://google`. -/
theorem decodePayload_codeList (s : String) (codes : List Nat)
    (hsplit : (splitOnComma s).map (fun num => parseIntModel (jsTrim num)) =
      codes.map (fun c => some (Int.ofNat c)))
    (hne : codes ≠ [])
    (hval : ∀ c ∈ codes, c < 0xD800) :
    decodePayload s = (URI_PREFIXES (codes.headD 0)).getD ("") ++
      String.mk ((codes.drop 1).map Char.ofNat) := by
  obtain ⟨c, cs, rfl⟩ : ∃ c cs, codes = c :: cs := by
    cases codes with
    | nil => exact absurd rfl hne
    | cons c cs => exact ⟨c, cs, rfl⟩
  simp only [decodePayload]
  rw [hsplit]
  simp only [List.map_cons, List.headD_cons, List.drop_succ_cons, List.drop_zero,
    List.headD_cons]
  have hlook : jsUriLookup (some (Int.ofNat c)) = (URI_PREFIXES c).getD ("") := by
    have h0 : jsUriLookup (some (Int.ofNat c)) =
        if (Int.ofNat c) < 0 then ""
        else (URI_PREFIXES (Int.ofNat c).toNat).getD ("") := rfl
    rw [h0, if_neg (by simp only [Int.ofNat_eq_natCast]; omega)]
    rfl
  rw [hlook]
  congr 1
  rw [List.map_map]
  refine congrArg String.mk (List.map_congr_left ?_)
  intro a ha
  simp only [Function.comp_apply, fromCharCode]
  congr 1
  have : a < 0xD800 := hval a (by simp [ha])
  simp only [Int.ofNat_eq_natCast]
  omega

/-- Witness for C7: the legacy payload `"4,103,111,111,103,108,101"`
(scenario 6) decodes to `https://google`. -/
theorem decodePayload_codeList_witness :
    ((splitOnComma ("4,103,111,111,103,108,101")).map
        (fun num => parseIntModel (jsTrim num)) =
      ([4, 103, 111, 111, 103, 108, 101] : List Nat).map
        (fun c => some (Int.ofNat c))) ∧
    decodePayload ("4,103,111,111,103,108,101") = "https://google" :=
  ⟨by decide, by
    rw [decodePayload_codeList ("4,103,111,111,103,108,101")
      [4, 103, 111, 111, 103, 108, 101] (by decide) (by decide) (by decide)]
    decide⟩

/-- Claim C9 (confirmed): the binary and legacy decode paths agree — for
every byte sequence of length at least 2 whose suffix bytes are ASCII
(below 0x80), the `fullUri` produced by `parseUriRecord` on the bytes
equals the string `decodePayload` produces on the comma-separated decimal
rendering of the same bytes. -/
theorem binary_legacy_agree (bytes : List Nat)
    (hlen : 2 ≤ bytes.length)
    (hbytes : ∀ b ∈ bytes, b < 256)
    (hascii : ∀ b ∈ bytes.drop 1, b < 0x80) :
    ∃ r, parseUriRecord bytes = some r ∧
      r.fullUri = decodePayload (renderBytes bytes) := by
  have hne : bytes ≠ [] := by
    intro e
    rw [e] at hlen
    simp at hlen
  refine ⟨_, parseUriRecord_some bytes hlen, ?_⟩
  rw [decodePayload_codeList (renderBytes bytes) bytes (splitparse_render bytes hne) hne
    (fun c hc => lt_trans (hbytes c hc) (by omega))]
  obtain ⟨b, rest, rfl⟩ : ∃ b rest, bytes = b :: rest := by
    cases bytes with
    | nil => exact absurd rfl hne
    | cons b rest => exact ⟨b, rest, rfl⟩
  simp only [List.getD_cons_zero, List.headD_cons, List.drop_succ_cons, List.drop_zero]
  congr 1
  exact utf8Decode_ascii rest (by simpa using hascii)

/-- Witness for C9: the bytes `[0x04, 0x67, 0x6F]` (prefix `https://`,
suffix `go`) agree with the legacy decoding of their rendering
`"4,103,111"`. -/
theorem binary_legacy_agree_witness :
    2 ≤ ([0x04, 0x67, 0x6F] : List Nat).length ∧
      (∃ r, parseUriRecord [0x04, 0x67, 0x6F] = some r ∧
        r.fullUri = decodePayload (renderBytes [0x04, 0x67, 0x6F])) :=
  ⟨by decide,
   binary_legacy_agree [0x04, 0x67, 0x6F] (by decide) (by decide) (by decide)⟩

end Yotocol
